import Mathlib

/-!
Verification of the geometric annotation engine of the `editor-pdf` repository.

The development shallowly embeds the TypeScript source:

* `pdf.service.ts` / its page-operation variant: the mutable store of text and
  pencil annotations (`PdfState`), the store mutators, the page-structural
  operations (`addNewPage`, `removePage`, `movePage`) and the export-time
  curve smoothing (`smoothPoints`).
* `pdf-editor.component.ts`: the eraser engine (`eraseAtScreenCoords`,
  `eraseFromPathScreenCoords`) and the circle-segment intersection
  (`getCircleLineIntersection`).

Numbers are modelled by exact rationals.  JavaScript `Math.sqrt` appears in the
source in two roles: (a) in comparisons `Math.sqrt d <= r`, which over the real
numbers are equivalent to `0 ≤ r ∧ d ≤ r ^ 2` (for `d ≥ 0`) and are translated
to that exact form (the equivalence is itself proved as a theorem over `ℝ`);
(b) as the root extraction in the intersection routine, translated to the exact
`Rat.sqrt` (exact on every perfect-square discriminant, in particular on all
concrete scenarios exercised by the specification).

Source identifiers whose raw spelling is unavailable here keep a recognisable
shortened name; each definition's doc comment names the source symbol.
-/

/-- Models the `PencilPoint` interface of `pdf.service.ts`: `{x, y}` in document
units. -/
structure PencilPoint where
  x : ℚ
  y : ℚ
deriving DecidableEq, Repr

/-- Models the `FontFamily` union type of `pdf.service.ts`. -/
inductive FontFamily where
  | arial
  | timesNewRoman
  | courierNew
  | georgia
  | verdana
deriving DecidableEq, Repr

/-- Models the `TextAnnotation` interface of `pdf.service.ts`.  The `id`
(`crypto.randomUUID()` in the source) is modelled as a natural number drawn
from a freshness counter. -/
structure TextAnnot where
  id : ℕ
  text : String
  x : ℚ
  y : ℚ
  fontSize : ℚ
  color : String
  pageNumber : ℕ
  fontFamily : FontFamily
  bold : Bool
  italic : Bool
  underline : Bool
deriving DecidableEq, Repr

/-- Models the `PencilAnnotation` interface of `pdf.service.ts`. -/
structure PencilAnnot where
  id : ℕ
  points : List PencilPoint
  color : String
  strokeWidth : ℚ
  opacity : ℚ
  pageNumber : ℕ
deriving DecidableEq, Repr

/-- Models `Omit<PencilAnnotation, 'id'>`, the argument of
`addPencilAnnotation`. -/
structure PencilInput where
  points : List PencilPoint
  color : String
  strokeWidth : ℚ
  opacity : ℚ
  pageNumber : ℕ
deriving DecidableEq, Repr

/-- The mutable state of `PdfService`:
`loaded` models `originalPdfBytes !== null`, `numPages` the page count of the
loaded document, `pageIds` the `pageIdsSignal` sequence of per-page unique ids,
`annotations` the `annotationsSignal` list, `pencilAnnotations` the
`pencilAnnotationsSignal` list.  `nextId` is the freshness counter modelling
`crypto.randomUUID()`: every id handed out so far is `< nextId`. -/
structure PdfState where
  loaded : Bool
  numPages : ℕ
  pageIds : List ℕ
  annotations : List TextAnnot
  pencilAnnotations : List PencilAnnot
  nextId : ℕ
deriving DecidableEq, Repr

/-- The errors thrown by the service (`throw new Error(...)` in the source). -/
inductive PdfErr where
  /-- `'PDF não carregado'` -/
  | notLoaded
  /-- `'Não é possível remover a última página do documento'` -/
  | lastPage
  /-- `'Número de página inválido'` -/
  | invalidPage
  /-- `'Índices de página inválidos'` -/
  | invalidIndices
deriving DecidableEq, Repr

/-! ## Geometry kernel -/

/-- Models `getCircleLineIntersection` (`pdf-editor.component.ts` lines
788-826), the circle/segment intersection solved through the quadratic
`a·t² + b·t + c = 0`.  `Math.sqrt(discriminant)` is translated to the exact
`Rat.sqrt` (the branch is only reached with `discriminant ≥ 0`). -/
def getCircleLineIntersection (cx cy r x1 y1 x2 y2 : ℚ) : Option PencilPoint :=
  let dx := x2 - x1
  let dy := y2 - y1
  let fx := x1 - cx
  let fy := y1 - cy
  let a := dx * dx + dy * dy
  let b := 2 * (fx * dx + fy * dy)
  let c := fx * fx + fy * fy - r * r
  let discriminant := b * b - 4 * a * c
  if discriminant < 0 ∨ a = 0 then
    none
  else
    let s := Rat.sqrt discriminant
    let t1 := (-b - s) / (2 * a)
    let t2 := (-b + s) / (2 * a)
    if 0 ≤ t1 ∧ t1 ≤ 1 then some ⟨x1 + t1 * dx, y1 + t1 * dy⟩
    else if 0 ≤ t2 ∧ t2 ≤ 1 then some ⟨x1 + t2 * dx, y1 + t2 * dy⟩
    else none

/-- The inside-the-eraser classification of `eraseFromPathScreenCoords`
(`pdf-editor.component.ts` lines 723-729):
`Math.sqrt((ex - px)² + (ey - py)²) <= r`.  Over the reals this comparison is
equivalent to `0 ≤ r ∧ (ex - px)² + (ey - py)² ≤ r²`, which is the exact form
used here (the equivalence is proved in the theorems below). -/
def isInsideEraser (ex ey r px py : ℚ) : Bool :=
  decide (0 ≤ r ∧ (ex - px) ^ 2 + (ey - py) ^ 2 ≤ r ^ 2)

/-- Result record of `eraseFromPathScreenCoords`:
`{ modified, remainingSegments }`. -/
structure EraseResult where
  modified : Bool
  remainingSegments : List (List PencilPoint)
deriving DecidableEq, Repr

/-- The point-walking loop of `eraseFromPathScreenCoords`
(`pdf-editor.component.ts` lines 723-783), with the loop state made explicit:
`prev` is `points[i-1]` (`none` when `i = 0`), `currentSegment` and `acc`
accumulate the open segment and the flushed segments, `modified` the flag.
After the last point the still-open segment is flushed when it has at least two
points (source lines 781-783). -/
def erasePointsLoop (ex ey r : ℚ) :
    Option PencilPoint → List PencilPoint → List (List PencilPoint) → Bool →
    List PencilPoint → EraseResult
  | _, currentSegment, acc, modified, [] =>
      ⟨modified, if 2 ≤ currentSegment.length then acc ++ [currentSegment] else acc⟩
  | prev, currentSegment, acc, modified, point :: rest =>
      if isInsideEraser ex ey r point.x point.y then
        let cs :=
          match prev with
          | some prevPoint =>
              if 0 < currentSegment.length then
                match getCircleLineIntersection ex ey r
                    prevPoint.x prevPoint.y point.x point.y with
                | some ipt => currentSegment ++ [ipt]
                | none => currentSegment
              else currentSegment
          | none => currentSegment
        let acc1 := if 2 ≤ cs.length then acc ++ [cs] else acc
        erasePointsLoop ex ey r (some point) [] acc1 true rest
      else
        let cs :=
          match prev with
          | some prevPoint =>
              if currentSegment.length = 0 ∧
                  isInsideEraser ex ey r prevPoint.x prevPoint.y then
                match getCircleLineIntersection ex ey r
                    prevPoint.x prevPoint.y point.x point.y with
                | some ipt => [ipt]
                | none => []
              else currentSegment
          | none => currentSegment
        erasePointsLoop ex ey r (some point) (cs ++ [point]) acc modified rest

/-- Models `eraseFromPathScreenCoords` (`pdf-editor.component.ts` lines
707-786): converts the eraser footprint from screen to document coordinates
(divide by zoom) and walks the stroke's points. -/
def eraseFromPathScreenCoords (screenX screenY radiusScreen : ℚ)
    (pencil : PencilAnnot) (zoom : ℚ) : EraseResult :=
  let eraserDocX := screenX / zoom
  let eraserDocY := screenY / zoom
  let eraserDocRadius := radiusScreen / zoom
  erasePointsLoop eraserDocX eraserDocY eraserDocRadius none [] [] false
    pencil.points

/-! ## Curve smoothing (`pdf.service.ts` lines 565-605) -/

/-- One sample of the quadratic Bézier curve from `mid` through control point
`p1` to `mid2` at parameter `t` (`pdf.service.ts` lines 591-597). -/
def bezPoint (mid p1 mid2 : PencilPoint) (t : ℚ) : PencilPoint :=
  ⟨(1 - t) ^ 2 * mid.x + 2 * (1 - t) * t * p1.x + t ^ 2 * mid2.x,
   (1 - t) ^ 2 * mid.y + 2 * (1 - t) * t * p1.y + t ^ 2 * mid2.y⟩

/-- The four samples `t = 0.25, 0.5, 0.75, 1.0` pushed for one interior segment
of `smoothPoints` (the loop `for (let t = 0.25; t <= 1; t += 0.25)`; `0.25` is
exact in binary floating point, so the loop runs exactly four times). -/
def bezSamples (p0 p1 p2 : PencilPoint) : List PencilPoint :=
  let mid : PencilPoint := ⟨(p0.x + p1.x) / 2, (p0.y + p1.y) / 2⟩
  let mid2 : PencilPoint := ⟨(p1.x + p2.x) / 2, (p1.y + p2.y) / 2⟩
  [bezPoint mid p1 mid2 (1 / 4), bezPoint mid p1 mid2 (1 / 2),
   bezPoint mid p1 mid2 (3 / 4), bezPoint mid p1 mid2 1]

/-- The main loop of `smoothPoints` (`for (let i = 0; i < points.length - 1;
i++)`): a window `p0 :: p1 :: p2 :: _` is an interior segment (`i <
points.length - 2`) producing four Bézier samples; the final window
`[p0, p1]` pushes the last point. -/
def smoothGo : List PencilPoint → List PencilPoint
  | p0 :: p1 :: p2 :: rest => bezSamples p0 p1 p2 ++ smoothGo (p1 :: p2 :: rest)
  | _ :: p1 :: [] => [p1]
  | _ => []

/-- Models `smoothPoints` (`pdf.service.ts` lines 565-605): sequences of length
at most 2 are returned unchanged; otherwise the first point is pushed and the
loop runs over consecutive windows. -/
def smoothPoints (points : List PencilPoint) : List PencilPoint :=
  if points.length ≤ 2 then points
  else
    match points with
    | [] => []
    | p0 :: rest => p0 :: smoothGo (p0 :: rest)

/-! ## Annotation store mutators (`pdf.service.ts`) -/

/-- Models `addPencilAnnotation` (`pdf.service.ts` lines 108-117): builds a new
record with a fresh id (`crypto.randomUUID()`, modelled by the `nextId`
counter) and appends it to the list, returning the new record.  Note the
source performs no validation of `points`. -/
def addPencilAnnot (s : PdfState) (input : PencilInput) : PencilAnnot × PdfState :=
  let newAnnot : PencilAnnot :=
    ⟨s.nextId, input.points, input.color, input.strokeWidth, input.opacity,
     input.pageNumber⟩
  (newAnnot,
   { s with pencilAnnotations := s.pencilAnnotations ++ [newAnnot],
            nextId := s.nextId + 1 })

/-- Models `removePencilAnnotation` (`pdf.service.ts` lines 125-129): filters
the list by id. -/
def removePencilAnnot (s : PdfState) (id : ℕ) : PdfState :=
  { s with pencilAnnotations := s.pencilAnnotations.filter (fun a => a.id ≠ id) }

/-! ## Eraser engine (`pdf-editor.component.ts` lines 665-705) -/

/-- The body of the inner loop of `eraseAtScreenCoords` (source lines 688-698):
a remaining segment with at least two points is added back to the store with
the original stroke's style and a fresh id. -/
def addSegStep (pencil : PencilAnnot) (st2 : PdfState)
    (segment : List PencilPoint) : PdfState :=
  if 2 ≤ segment.length then
    (addPencilAnnot st2
      ⟨segment, pencil.color, pencil.strokeWidth, pencil.opacity,
       pencil.pageNumber⟩).2
  else st2

/-- The body of the outer loop of `eraseAtScreenCoords` (source lines 674-700):
a modified stroke is removed and its remaining segments added back. -/
def eraseStep (screenX screenY radiusScreen zoom : ℚ) (st : PdfState)
    (pencil : PencilAnnot) : PdfState :=
  let result := eraseFromPathScreenCoords screenX screenY radiusScreen
    pencil zoom
  if result.modified then
    result.remainingSegments.foldl (addSegStep pencil)
      (removePencilAnnot st pencil.id)
  else st

/-- Models `eraseAtScreenCoords` (`pdf-editor.component.ts` lines 665-705):
iterates over the snapshot of the current page's pencil annotations (the
component's `pencilAnnotations` computed is the service list filtered by
`currentPage`); for every stroke the eraser modified, removes it from the
store and adds each remaining segment with at least two points as a new
stroke inheriting the original's style. -/
def eraseAtScreenCoords (screenX screenY radiusScreen zoom : ℚ)
    (currentPage : ℕ) (s : PdfState) : PdfState :=
  (s.pencilAnnotations.filter (fun a => a.pageNumber = currentPage)).foldl
    (eraseStep screenX screenY radiusScreen zoom) s

/-! ## Page-structural operations (service variant with page management) -/

/-- `list.filter((_, index) => index !== k)` / `Array.prototype.splice(k, 1)`:
removal of the element at index `k`. -/
def removeAt {α : Type _} : List α → ℕ → List α
  | [], _ => []
  | _ :: rest, 0 => rest
  | a :: rest, n + 1 => a :: removeAt rest n

/-- `Array.prototype.splice(k, 0, x)`: insertion of `x` at index `k` (appends
when `k` exceeds the length, as `splice` does). -/
def insertAt {α : Type _} : List α → ℕ → α → List α
  | l, 0, x => x :: l
  | [], _ + 1, x => [x]
  | a :: rest, n + 1, x => a :: insertAt rest n x

/-- The two-splice idiom of `movePage`:
`const [removed] = arr.splice(fromIndex, 1); arr.splice(toIndex, 0, removed)`. -/
def moveElem {α : Type _} (l : List α) (fromIndex toIndex : ℕ) : List α :=
  match l.get? fromIndex with
  | none => l
  | some x => insertAt (removeAt l fromIndex) toIndex x

/-- The `oldToNew` map construction of `movePage`
(`for (let i = 0; i < totalPages; i++) oldToNew.set(pageOrder[i] + 1, i + 1)`),
as an association list; `i` is the loop counter. -/
def buildOldToNew : List ℕ → ℕ → List (ℕ × ℕ)
  | [], _ => []
  | v :: rest, i => (v + 1, i + 1) :: buildOldToNew rest (i + 1)

/-- `Map.prototype.get` on the association list (the keys are pairwise
distinct, so first-match lookup agrees with the JavaScript `Map`). -/
def mapLookup : List (ℕ × ℕ) → ℕ → Option ℕ
  | [], _ => none
  | (k, v) :: rest, key => if k = key then some v else mapLookup rest key

/-- Models `addNewPage` (service page-operation variant, lines 395-431):
appends one blank page to the document and one fresh id to `pageIds`, returning
the new page count.  Annotations are untouched. -/
def addNewPage (s : PdfState) : Except PdfErr (PdfState × ℕ) :=
  if s.loaded = false then .error .notLoaded
  else
    .ok ({ s with numPages := s.numPages + 1,
                  pageIds := s.pageIds ++ [s.nextId],
                  nextId := s.nextId + 1 },
         s.numPages + 1)

/-- Models `removePage` (service page-operation variant, lines 433-493): after
the guards (document loaded, more than one page, `1 ≤ pageNumber ≤
totalPages`) it removes the page, drops its `pageIds` entry, deletes every
annotation on the removed page and decrements the page number of every
annotation after it, returning the new page count. -/
def removePage (s : PdfState) (pageNumber : ℕ) : Except PdfErr (PdfState × ℕ) :=
  if s.loaded = false then .error .notLoaded
  else
    let totalPages := s.numPages
    if totalPages ≤ 1 then .error .lastPage
    else if pageNumber < 1 ∨ totalPages < pageNumber then .error .invalidPage
    else
      .ok ({ s with
              numPages := totalPages - 1,
              pageIds := removeAt s.pageIds (pageNumber - 1),
              annotations :=
                (s.annotations.filter (fun a => a.pageNumber ≠ pageNumber)).map
                  (fun a =>
                    { a with pageNumber :=
                        if pageNumber < a.pageNumber then a.pageNumber - 1
                        else a.pageNumber }),
              pencilAnnotations :=
                (s.pencilAnnotations.filter
                    (fun a => a.pageNumber ≠ pageNumber)).map
                  (fun a =>
                    { a with pageNumber :=
                        if pageNumber < a.pageNumber then a.pageNumber - 1
                        else a.pageNumber }) },
           totalPages - 1)

/-- Models `movePage` (service page-operation variant, lines 495-570): after
the index guards, reorders the physical pages by the `pageOrder` splice,
applies the same splice to `pageIds`, and remaps every annotation's page
number through the `oldToNew` map (`oldToNew.get(a.pageNumber) ??
a.pageNumber`).  Indices are 0-based; the source's `fromIndex < 0 || toIndex <
0` half of the guard cannot fire for natural-number indices. -/
def movePage (s : PdfState) (fromIndex toIndex : ℕ) : Except PdfErr PdfState :=
  if s.loaded = false then .error .notLoaded
  else
    let totalPages := s.numPages
    if totalPages ≤ fromIndex ∨ totalPages ≤ toIndex then .error .invalidIndices
    else if fromIndex = toIndex then .ok s
    else
      let pageOrder := moveElem (List.range totalPages) fromIndex toIndex
      let oldToNew := buildOldToNew pageOrder 0
      .ok { s with
              pageIds := moveElem s.pageIds fromIndex toIndex,
              annotations := s.annotations.map
                (fun a =>
                  { a with pageNumber :=
                      (mapLookup oldToNew a.pageNumber).getD a.pageNumber }),
              pencilAnnotations := s.pencilAnnotations.map
                (fun a =>
                  { a with pageNumber :=
                      (mapLookup oldToNew a.pageNumber).getD a.pageNumber }) }

/-- The state observed after calling `removePage`: on an exception the signals
keep their previous value (all throws happen before any mutation). -/
def runRemovePage (s : PdfState) (pageNumber : ℕ) : PdfState :=
  match removePage s pageNumber with
  | .ok (s1, _) => s1
  | .error _ => s

/-- The state observed after calling `movePage`; as `runRemovePage`. -/
def runMovePage (s : PdfState) (fromIndex toIndex : ℕ) : PdfState :=
  match movePage s fromIndex toIndex with
  | .ok s1 => s1
  | .error _ => s

/-- The state observed after calling `addNewPage`; as `runRemovePage`. -/
def runAddNewPage (s : PdfState) : PdfState :=
  match addNewPage s with
  | .ok (s1, _) => s1
  | .error _ => s

/-! ## Specification-side definitions

These definitions transcribe the *specification's wording* (not the source) and
are compared against the embedded source functions in the theorems below. -/

/-- Spec §4.1: the coefficient `a = |p2 - p1|²` of the intersection
quadratic. -/
def specSegA (x1 y1 x2 y2 : ℚ) : ℚ := (x2 - x1) ^ 2 + (y2 - y1) ^ 2

/-- Spec §4.1: the coefficient `b = 2·((p1 - center)·(p2 - p1))`. -/
def specSegB (cx cy x1 y1 x2 y2 : ℚ) : ℚ :=
  2 * ((x1 - cx) * (x2 - x1) + (y1 - cy) * (y2 - y1))

/-- Spec §4.1: the coefficient `c = |p1 - center|² - radius²`. -/
def specSegC (cx cy r x1 y1 : ℚ) : ℚ := (x1 - cx) ^ 2 + (y1 - cy) ^ 2 - r ^ 2

/-- Spec §4.1: the discriminant of `a·t² + b·t + c = 0`. -/
def specDisc (cx cy r x1 y1 x2 y2 : ℚ) : ℚ :=
  specSegB cx cy x1 y1 x2 y2 ^ 2 -
    4 * specSegA x1 y1 x2 y2 * specSegC cx cy r x1 y1

/-- Spec §4.1: the smaller root `t1` (smaller because the leading coefficient
is positive whenever it is nonzero). -/
def specT1 (cx cy r x1 y1 x2 y2 : ℚ) : ℚ :=
  (-specSegB cx cy x1 y1 x2 y2 - Rat.sqrt (specDisc cx cy r x1 y1 x2 y2)) /
    (2 * specSegA x1 y1 x2 y2)

/-- Spec §4.1: the larger root `t2`. -/
def specT2 (cx cy r x1 y1 x2 y2 : ℚ) : ℚ :=
  (-specSegB cx cy x1 y1 x2 y2 + Rat.sqrt (specDisc cx cy r x1 y1 x2 y2)) /
    (2 * specSegA x1 y1 x2 y2)

/-- The point of the segment `p1 → p2` at parameter `t`. -/
def specPointAt (x1 y1 x2 y2 t : ℚ) : PencilPoint :=
  ⟨x1 + t * (x2 - x1), y1 + t * (y2 - y1)⟩

/-- Squared Euclidean distance between two points. -/
def distSqQ (p q : PencilPoint) : ℚ := (p.x - q.x) ^ 2 + (p.y - q.y) ^ 2

/-- Spec §3 store invariant: every annotation's `pageNumber` references an
existing page, i.e. lies in `[1, numPages]`. -/
def annotationsInRange (s : PdfState) : Prop :=
  (∀ a ∈ s.annotations, 1 ≤ a.pageNumber ∧ a.pageNumber ≤ s.numPages) ∧
  (∀ a ∈ s.pencilAnnotations, 1 ≤ a.pageNumber ∧ a.pageNumber ≤ s.numPages)

/-- Spec §4.3 `renumberOnPageRemove`, transcribed from the claim's wording:
delete every annotation whose page number equals the removed page, decrement
the page number of every annotation after it, keep the rest unchanged. -/
def renumberOnRemoveSpec {α : Type _} (page : α → ℕ) (setPage : α → ℕ → α)
    (removed : ℕ) (l : List α) : List α :=
  l.filterMap (fun a =>
    if page a = removed then none
    else some (setPage a (if removed < page a then page a - 1 else page a)))

/-- Index of the first occurrence of `k` in `l` (length of `l` when absent). -/
def idxOf : List ℕ → ℕ → ℕ
  | [], _ => 0
  | v :: rest, k => if v = k then 0 else idxOf rest k + 1

/-- The old-display-number → new-display-number permutation that reordering the
physical pages applies, transcribed from the claim's wording: page `old` (whose
0-based index `old - 1` sits at some position `j` of the reordered index list)
gets display number `j + 1`. -/
def displayPerm (total fromIndex toIndex old : ℕ) : ℕ :=
  idxOf (moveElem (List.range total) fromIndex toIndex) (old - 1) + 1

/-! ## Helper lemmas -/

theorem smoothGo_ne_nil (p0 p1 : PencilPoint) (l : List PencilPoint) :
    smoothGo (p0 :: p1 :: l) ≠ [] := by
  cases l with
  | nil => simp [smoothGo]
  | cons p2 rest => simp [smoothGo, bezSamples]

theorem smoothGo_getLast (l : List PencilPoint) :
    ∀ p0 p1 : PencilPoint,
      (smoothGo (p0 :: p1 :: l)).getLast? = (p1 :: l).getLast? := by
  induction l with
  | nil => intro p0 p1; rfl
  | cons p2 rest ih =>
      intro p0 p1
      have h1 : smoothGo (p0 :: p1 :: p2 :: rest) =
          bezSamples p0 p1 p2 ++ smoothGo (p1 :: p2 :: rest) := rfl
      rw [h1, List.getLast?_append, ih p1 p2]
      have h2 : (p2 :: rest).getLast?.isSome := by
        simp [List.getLast?_isSome]
      cases hx : (p2 :: rest).getLast? with
      | none => rw [hx] at h2; simp at h2
      | some v => simp [List.getLast?_cons_cons, hx]

/-- C8: `smoothPoints` returns inputs of length at most 2 unchanged, and for
every input of length at least 2 the output keeps the first and the last input
point exactly. -/
theorem smoothPoints_endpoints (points : List PencilPoint) :
    (points.length ≤ 2 → smoothPoints points = points) ∧
    (2 ≤ points.length →
      (smoothPoints points).head? = points.head? ∧
      (smoothPoints points).getLast? = points.getLast?) := by
  constructor
  · intro h
    simp [smoothPoints, h]
  · intro h
    by_cases hle : points.length ≤ 2
    · simp [smoothPoints, hle]
    · have h3 : 3 ≤ points.length := by omega
      match points, h3 with
      | p0 :: p1 :: p2 :: rest, _ =>
        have hs : smoothPoints (p0 :: p1 :: p2 :: rest) =
            p0 :: smoothGo (p0 :: p1 :: p2 :: rest) := by
          simp only [smoothPoints]
          rw [if_neg hle]
        constructor
        · rw [hs]; rfl
        · rw [hs]
          have hne := smoothGo_ne_nil p0 p1 (p2 :: rest)
          have hlast : (p0 :: smoothGo (p0 :: p1 :: p2 :: rest)).getLast? =
              (smoothGo (p0 :: p1 :: p2 :: rest)).getLast? := by
            cases hg : smoothGo (p0 :: p1 :: p2 :: rest) with
            | nil => exact absurd hg hne
            | cons q qs => rw [List.getLast?_cons_cons]
          rw [hlast, smoothGo_getLast]
          conv_rhs => rw [List.getLast?_cons_cons]

/-- C8 witness: a concrete three-point polyline keeps its endpoints. -/
theorem smoothPoints_endpoints_witness :
    (smoothPoints [⟨0, 0⟩, ⟨2, 0⟩, ⟨4, 0⟩]).head? = some ⟨0, 0⟩ ∧
    (smoothPoints [⟨0, 0⟩, ⟨2, 0⟩, ⟨4, 0⟩]).getLast? = some ⟨4, 0⟩ := by
  have h := (smoothPoints_endpoints [⟨0, 0⟩, ⟨2, 0⟩, ⟨4, 0⟩]).2 (by decide)
  exact ⟨h.1.trans rfl, h.2.trans rfl⟩

/-- C9: the eraser's inside-footprint classification agrees exactly with the
real-number comparison `distance(p, center) ≤ radius`: a point at distance
exactly the radius is inside, any strictly larger distance is outside. -/
theorem insideEraser_iff_dist_le (ex ey r px py : ℚ) (hr : 0 < r) :
    isInsideEraser ex ey r px py = true ↔
      Real.sqrt (((ex : ℝ) - px) ^ 2 + ((ey : ℝ) - py) ^ 2) ≤ (r : ℝ) := by
  rw [isInsideEraser, decide_eq_true_eq, Real.sqrt_le_iff]
  constructor
  · rintro ⟨h1, h2⟩
    refine ⟨by exact_mod_cast h1, ?_⟩
    exact_mod_cast h2
  · rintro ⟨h1, h2⟩
    refine ⟨by exact_mod_cast h1, ?_⟩
    exact_mod_cast h2

/-- C9 witness: the point `(3, 4)` lies at distance exactly `5` from the
origin and is classified inside the radius-5 footprint. -/
theorem insideEraser_iff_dist_le_witness : isInsideEraser 0 0 5 3 4 = true :=
  (insideEraser_iff_dist_le 0 0 5 3 4 (by decide)).mpr
    (by
      rw [Real.sqrt_le_iff]
      push_cast
      norm_num)

/-- C3 counterexample: `addPencilAnnotation` performs no point-count
validation.  For a concrete one-point input on a concrete store the stroke IS
persisted (the list changes and an id is returned), contradicting the claimed
rejection. -/
theorem addPencil_accepts_short_cex :
    (([⟨1, 2⟩] : List PencilPoint).length < 2) ∧
    (addPencilAnnot ⟨true, 1, [0], [], [], 3⟩
        ⟨[⟨1, 2⟩], default, 1, 1, 1⟩).2.pencilAnnotations ≠
      (⟨true, 1, [0], [], [], 3⟩ : PdfState).pencilAnnotations := by
  decide

/-- C3 amended: `addPencilAnnotation` performs no validation at all — for
every input, including inputs with fewer than 2 points, it appends one stroke
carrying the input's fields and a fresh id (distinct from every id already in
the store) and returns it. -/
theorem addPencil_appends_unconditionally (s : PdfState) (input : PencilInput)
    (h : ∀ a ∈ s.pencilAnnotations, a.id < s.nextId) :
    (addPencilAnnot s input).2.pencilAnnotations =
      s.pencilAnnotations ++
        [⟨s.nextId, input.points, input.color, input.strokeWidth,
          input.opacity, input.pageNumber⟩] ∧
    (addPencilAnnot s input).1.id = s.nextId ∧
    (addPencilAnnot s input).2.nextId = s.nextId + 1 ∧
    ∀ a ∈ s.pencilAnnotations, a.id ≠ (addPencilAnnot s input).1.id := by
  refine ⟨rfl, rfl, rfl, ?_⟩
  intro a ha
  exact Nat.ne_of_lt (h a ha)

/-- C3 witness: the one-point input is appended with the fresh id `3`. -/
theorem addPencil_appends_unconditionally_witness :
    (addPencilAnnot ⟨true, 1, [0], [], [], 3⟩
        ⟨[⟨1, 2⟩], default, 1, 1, 1⟩).2.pencilAnnotations =
      [⟨3, [⟨1, 2⟩], default, 1, 1, 1⟩] := by
  have h := addPencil_appends_unconditionally ⟨true, 1, [0], [], [], 3⟩
    ⟨[⟨1, 2⟩], default, 1, 1, 1⟩ (by decide)
  simpa using h.1

/-- C10: on a loaded single-page document, or with page number `0`, or with a
page number above the page count, `removePage` throws and the annotation
lists and the page-id sequence are untouched (every guard runs before any
mutation). -/
theorem removePage_guards_no_mutation (s : PdfState) (p : ℕ)
    (hl : s.loaded = true)
    (h : s.numPages = 1 ∨ p < 1 ∨ s.numPages < p) :
    (∃ e, removePage s p = .error e) ∧
    runRemovePage s p = s ∧
    (runRemovePage s p).annotations = s.annotations ∧
    (runRemovePage s p).pencilAnnotations = s.pencilAnnotations ∧
    (runRemovePage s p).pageIds = s.pageIds := by
  have herr : ∃ e, removePage s p = .error e := by
    rw [removePage, hl]
    simp only [Bool.true_eq_false, if_false]
    rcases h with h1 | h2 | h3
    · rw [if_pos (by omega)]
      exact ⟨.lastPage, rfl⟩
    · by_cases hle : s.numPages ≤ 1
      · rw [if_pos hle]
        exact ⟨.lastPage, rfl⟩
      · rw [if_neg hle, if_pos (Or.inl h2)]
        exact ⟨.invalidPage, rfl⟩
    · by_cases hle : s.numPages ≤ 1
      · rw [if_pos hle]
        exact ⟨.lastPage, rfl⟩
      · rw [if_neg hle, if_pos (Or.inr h3)]
        exact ⟨.invalidPage, rfl⟩
  obtain ⟨e, he⟩ := herr
  have hrun : runRemovePage s p = s := by
    rw [runRemovePage, he]
  exact ⟨⟨e, he⟩, hrun, by rw [hrun], by rw [hrun], by rw [hrun]⟩

/-- C10 witness: removing page 1 of a loaded one-page document errors and
leaves the store as it was. -/
theorem removePage_guards_no_mutation_witness :
    (∃ e, removePage ⟨true, 1, [7], [], [], 0⟩ 1 = .error e) ∧
    runRemovePage ⟨true, 1, [7], [], [], 0⟩ 1 = ⟨true, 1, [7], [], [], 0⟩ := by
  have h := removePage_guards_no_mutation ⟨true, 1, [7], [], [], 0⟩ 1 rfl
    (Or.inl rfl)
  exact ⟨h.1, h.2.1⟩

/-- Bridge: the embedded `getCircleLineIntersection` computes exactly the
decision tree phrased with the specification's coefficient formulas. -/
theorem getCircleLineIntersection_shape (cx cy r x1 y1 x2 y2 : ℚ) :
    getCircleLineIntersection cx cy r x1 y1 x2 y2 =
      (if specDisc cx cy r x1 y1 x2 y2 < 0 ∨ specSegA x1 y1 x2 y2 = 0 then none
       else if 0 ≤ specT1 cx cy r x1 y1 x2 y2 ∧
           specT1 cx cy r x1 y1 x2 y2 ≤ 1 then
         some (specPointAt x1 y1 x2 y2 (specT1 cx cy r x1 y1 x2 y2))
       else if 0 ≤ specT2 cx cy r x1 y1 x2 y2 ∧
           specT2 cx cy r x1 y1 x2 y2 ≤ 1 then
         some (specPointAt x1 y1 x2 y2 (specT2 cx cy r x1 y1 x2 y2))
       else none) := by
  have hB : 2 * ((x1 - cx) * (x2 - x1) + (y1 - cy) * (y2 - y1)) =
      specSegB cx cy x1 y1 x2 y2 := by rw [specSegB]
  have hA : (x2 - x1) * (x2 - x1) + (y2 - y1) * (y2 - y1) =
      specSegA x1 y1 x2 y2 := by rw [specSegA]; ring
  have hD : 2 * ((x1 - cx) * (x2 - x1) + (y1 - cy) * (y2 - y1)) *
        (2 * ((x1 - cx) * (x2 - x1) + (y1 - cy) * (y2 - y1))) -
        4 * ((x2 - x1) * (x2 - x1) + (y2 - y1) * (y2 - y1)) *
          ((x1 - cx) * (x1 - cx) + (y1 - cy) * (y1 - cy) - r * r) =
      specDisc cx cy r x1 y1 x2 y2 := by
    rw [specDisc, specSegA, specSegB, specSegC]; ring
  rw [getCircleLineIntersection]
  simp only []
  rw [hD, hA, hB]
  rfl

/-- The squared distance from a parametric segment point back to the segment
start grows with the square of the parameter. -/
theorem distSqQ_specPointAt (x1 y1 x2 y2 t : ℚ) :
    distSqQ (specPointAt x1 y1 x2 y2 t) ⟨x1, y1⟩ =
      t ^ 2 * specSegA x1 y1 x2 y2 := by
  rw [distSqQ, specPointAt, specSegA]
  ring

/-- C2: the circle-segment intersection returns `none` exactly on a negative
discriminant or a degenerate segment; otherwise, with roots `t1 ≤ t2`, it
returns the point at the first root inside `[0, 1]`, else at the second, else
`none` — and when both roots are inside `[0, 1]` the returned point is the one
nearest the segment start. -/
theorem circleSegIntersection_spec (cx cy r x1 y1 x2 y2 : ℚ) :
    ((specDisc cx cy r x1 y1 x2 y2 < 0 ∨ specSegA x1 y1 x2 y2 = 0) →
      getCircleLineIntersection cx cy r x1 y1 x2 y2 = none) ∧
    (0 ≤ specDisc cx cy r x1 y1 x2 y2 → specSegA x1 y1 x2 y2 ≠ 0 →
      specT1 cx cy r x1 y1 x2 y2 ≤ specT2 cx cy r x1 y1 x2 y2 ∧
      getCircleLineIntersection cx cy r x1 y1 x2 y2 =
        (if 0 ≤ specT1 cx cy r x1 y1 x2 y2 ∧
             specT1 cx cy r x1 y1 x2 y2 ≤ 1 then
           some (specPointAt x1 y1 x2 y2 (specT1 cx cy r x1 y1 x2 y2))
         else if 0 ≤ specT2 cx cy r x1 y1 x2 y2 ∧
             specT2 cx cy r x1 y1 x2 y2 ≤ 1 then
           some (specPointAt x1 y1 x2 y2 (specT2 cx cy r x1 y1 x2 y2))
         else none) ∧
      (0 ≤ specT1 cx cy r x1 y1 x2 y2 → specT1 cx cy r x1 y1 x2 y2 ≤ 1 →
       0 ≤ specT2 cx cy r x1 y1 x2 y2 → specT2 cx cy r x1 y1 x2 y2 ≤ 1 →
        getCircleLineIntersection cx cy r x1 y1 x2 y2 =
          some (specPointAt x1 y1 x2 y2 (specT1 cx cy r x1 y1 x2 y2)) ∧
        distSqQ (specPointAt x1 y1 x2 y2 (specT1 cx cy r x1 y1 x2 y2))
            ⟨x1, y1⟩ ≤
          distSqQ (specPointAt x1 y1 x2 y2 (specT2 cx cy r x1 y1 x2 y2))
            ⟨x1, y1⟩)) := by
  constructor
  · intro h
    rw [getCircleLineIntersection_shape, if_pos h]
  · intro hD hA
    have hcond : ¬(specDisc cx cy r x1 y1 x2 y2 < 0 ∨
        specSegA x1 y1 x2 y2 = 0) := by
      push_neg
      exact ⟨le_of_not_lt (fun hc => absurd hD (not_le.mpr hc)), hA⟩
    have hA0 : 0 ≤ specSegA x1 y1 x2 y2 := by
      rw [specSegA]; positivity
    have hApos : 0 < specSegA x1 y1 x2 y2 := lt_of_le_of_ne hA0 (Ne.symm hA)
    have hs : 0 ≤ Rat.sqrt (specDisc cx cy r x1 y1 x2 y2) :=
      Rat.sqrt_nonneg _
    have h12 : specT1 cx cy r x1 y1 x2 y2 ≤ specT2 cx cy r x1 y1 x2 y2 := by
      rw [specT1, specT2]
      have hnum : -specSegB cx cy x1 y1 x2 y2 -
            Rat.sqrt (specDisc cx cy r x1 y1 x2 y2) ≤
          -specSegB cx cy x1 y1 x2 y2 +
            Rat.sqrt (specDisc cx cy r x1 y1 x2 y2) := by linarith
      exact div_le_div_of_nonneg_right hnum (by positivity) |>.trans_eq rfl
    refine ⟨h12, ?_, ?_⟩
    · rw [getCircleLineIntersection_shape, if_neg hcond]
    · intro ht1a ht1b ht2a ht2b
      constructor
      · rw [getCircleLineIntersection_shape, if_neg hcond,
          if_pos ⟨ht1a, ht1b⟩]
      · rw [distSqQ_specPointAt, distSqQ_specPointAt]
        exact mul_le_mul_of_nonneg_right (pow_le_pow_left₀ ht1a h12 2) hA0

/-- `Rat.sqrt` is exact on the perfect square `40000`. -/
theorem ratSqrt_40000 : Rat.sqrt 40000 = 200 := by
  rw [show (40000 : ℚ) = 200 * 200 by norm_num, Rat.sqrt_eq]
  norm_num

/-- C2 witness: the horizontal segment `(-10,0) → (10,0)` crosses the radius-5
circle at both roots `t1 = 1/4 ≤ t2 = 3/4`; the returned point is the entry
point `(-5, 0)`, the one nearest the segment start. -/
theorem circleSegIntersection_spec_witness :
    getCircleLineIntersection 0 0 5 (-10) 0 10 0 = some ⟨-5, 0⟩ := by
  have e1 : specT1 0 0 5 (-10) 0 10 0 = 1 / 4 := by
    simp only [specT1, specDisc, specSegA, specSegB, specSegC]
    norm_num [ratSqrt_40000]
  have e2 : specT2 0 0 5 (-10) 0 10 0 = 3 / 4 := by
    simp only [specT2, specDisc, specSegA, specSegB, specSegC]
    norm_num [ratSqrt_40000]
  have hD : (0 : ℚ) ≤ specDisc 0 0 5 (-10) 0 10 0 := by
    simp only [specDisc, specSegA, specSegB, specSegC]
    norm_num
  have hA : specSegA (-10) 0 10 0 ≠ 0 := by
    simp only [specSegA]
    norm_num
  have h := (circleSegIntersection_spec 0 0 5 (-10) 0 10 0).2 hD hA
  have h2 := h.2.2 (by rw [e1]; norm_num) (by rw [e1]; norm_num)
    (by rw [e2]; norm_num) (by rw [e2]; norm_num)
  rw [h2.1, e1]
  simp only [specPointAt]
  norm_num

/-- A stroke none of whose points is classified inside never sets the
`modified` flag: the loop only takes the outside branch. -/
theorem erasePointsLoop_all_outside (ex ey r : ℚ) :
    ∀ pts : List PencilPoint,
      (∀ q ∈ pts, isInsideEraser ex ey r q.x q.y = false) →
      ∀ prev cur acc m,
        (erasePointsLoop ex ey r prev cur acc m pts).modified = m := by
  intro pts
  induction pts with
  | nil => intro _ prev cur acc m; rfl
  | cons p rest ih =>
      intro h prev cur acc m
      have hp : isInsideEraser ex ey r p.x p.y = false :=
        h p (List.mem_cons_self p rest)
      simp only [erasePointsLoop, hp, Bool.false_eq_true, if_false]
      exact ih (fun q hq => h q (List.mem_cons_of_mem p hq)) _ _ _ _

/-- `eraseFromPathScreenCoords` reports a stroke with every point outside the
footprint as unmodified. -/
theorem eraseFromPath_not_modified (screenX screenY radiusScreen zoom : ℚ)
    (stroke : PencilAnnot)
    (h : ∀ q ∈ stroke.points,
      isInsideEraser (screenX / zoom) (screenY / zoom) (radiusScreen / zoom)
        q.x q.y = false) :
    (eraseFromPathScreenCoords screenX screenY radiusScreen stroke
      zoom).modified = false := by
  rw [eraseFromPathScreenCoords]
  exact erasePointsLoop_all_outside _ _ _ _ h none [] [] false

/-- `addSegStep` only appends, so it keeps every existing store entry. -/
theorem stroke_mem_addSegStep (pencil : PencilAnnot) (st : PdfState)
    (seg : List PencilPoint) (stroke : PencilAnnot)
    (h : stroke ∈ st.pencilAnnotations) :
    stroke ∈ (addSegStep pencil st seg).pencilAnnotations := by
  rw [addSegStep]
  split
  · exact List.mem_append_left _ h
  · exact h

/-- The inner segment fold only appends. -/
theorem stroke_mem_segFold (pencil stroke : PencilAnnot) :
    ∀ (segs : List (List PencilPoint)) (st : PdfState),
      stroke ∈ st.pencilAnnotations →
      stroke ∈ (segs.foldl (addSegStep pencil) st).pencilAnnotations := by
  intro segs
  induction segs with
  | nil => intro st h; exact h
  | cons sg rest ih =>
      intro st h
      exact ih _ (stroke_mem_addSegStep pencil st sg stroke h)

/-- One outer-loop step keeps `stroke` in the store as long as the processed
stroke either has a different id or was not modified. -/
theorem stroke_mem_eraseStep (screenX screenY radiusScreen zoom : ℚ)
    (st : PdfState) (pencil stroke : PencilAnnot)
    (h : stroke ∈ st.pencilAnnotations)
    (hcase : pencil.id ≠ stroke.id ∨
      (eraseFromPathScreenCoords screenX screenY radiusScreen pencil
        zoom).modified = false) :
    stroke ∈
      (eraseStep screenX screenY radiusScreen zoom st pencil).pencilAnnotations := by
  rw [eraseStep]
  split
  · rename_i hmod
    apply stroke_mem_segFold
    have hne : pencil.id ≠ stroke.id := by
      rcases hcase with hne | hfalse
      · exact hne
      · rw [hfalse] at hmod; exact absurd hmod (by simp)
    rw [removePencilAnnot]
    refine List.mem_filter.mpr ⟨h, ?_⟩
    simp [Ne.symm hne]
  · exact h

/-- The outer fold keeps `stroke` in the store when every processed stroke is
either `stroke` itself (unmodified) or has a different id. -/
theorem stroke_mem_eraseFold (screenX screenY radiusScreen zoom : ℚ)
    (stroke : PencilAnnot) :
    ∀ (l : List PencilAnnot) (st : PdfState),
      stroke ∈ st.pencilAnnotations →
      (∀ p ∈ l, p = stroke ∨ p.id ≠ stroke.id) →
      (eraseFromPathScreenCoords screenX screenY radiusScreen stroke
        zoom).modified = false →
      stroke ∈
        (l.foldl (eraseStep screenX screenY radiusScreen zoom)
          st).pencilAnnotations := by
  intro l
  induction l with
  | nil => intro st h _ _; exact h
  | cons p rest ih =>
      intro st h hl hmod
      refine ih _ ?_ (fun q hq => hl q (List.mem_cons_of_mem _ hq)) hmod
      apply stroke_mem_eraseStep _ _ _ _ _ _ _ h
      rcases hl p (List.mem_cons_self _ _) with rfl | hne
      · exact Or.inr hmod
      · exact Or.inl hne

/-- C7: a stroke none of whose points lies inside the eraser footprint (in
document coordinates) survives one eraser application with its id and point
sequence untouched: the very record is still in the store. -/
theorem eraser_keeps_untouched_stroke (screenX screenY radiusScreen zoom : ℚ)
    (currentPage : ℕ) (s : PdfState) (stroke : PencilAnnot)
    (hmem : stroke ∈ s.pencilAnnotations)
    (hnodup : (s.pencilAnnotations.map (fun a => a.id)).Nodup)
    (hout : ∀ q ∈ stroke.points,
      isInsideEraser (screenX / zoom) (screenY / zoom) (radiusScreen / zoom)
        q.x q.y = false) :
    stroke ∈
      (eraseAtScreenCoords screenX screenY radiusScreen zoom currentPage
        s).pencilAnnotations := by
  rw [eraseAtScreenCoords]
  apply stroke_mem_eraseFold
  · exact hmem
  · intro p hp
    have hpmem : p ∈ s.pencilAnnotations := (List.mem_filter.mp hp).1
    by_cases hid : p.id = stroke.id
    · exact Or.inl (List.inj_on_of_nodup_map hnodup hpmem hmem hid)
    · exact Or.inr hid
  · exact eraseFromPath_not_modified _ _ _ _ _ hout

/-- C7 witness: a two-point stroke far away from the footprint survives a
concrete eraser application. -/
theorem eraser_keeps_untouched_stroke_witness :
    (⟨0, [⟨100, 100⟩, ⟨120, 100⟩], default, 2, 1, 1⟩ : PencilAnnot) ∈
      (eraseAtScreenCoords 0 0 5 1 1
        ⟨true, 1, [7], [],
         [⟨0, [⟨100, 100⟩, ⟨120, 100⟩], default, 2, 1, 1⟩],
         1⟩).pencilAnnotations := by
  apply eraser_keeps_untouched_stroke
  · simp
  · simp
  · intro q hq
    have hq2 : q = (⟨100, 100⟩ : PencilPoint) ∨ q = (⟨120, 100⟩ : PencilPoint) := by
      simpa using hq
    rcases hq2 with rfl | rfl <;>
      · rw [isInsideEraser, decide_eq_false_iff_not]
        push_neg
        intro _
        norm_num

/-- Concrete evaluation: the segment `(0,0) → (20,0)` enters the circle of
radius 5 around `(20,0)` at `(15,0)` (root `t1 = 3/4`). -/
theorem interEval_entry : getCircleLineIntersection 20 0 5 0 0 20 0 = some ⟨15, 0⟩ := by
  rw [getCircleLineIntersection]
  norm_num [ratSqrt_40000]

/-- Concrete evaluation: the segment `(20,0) → (40,0)` leaves the circle of
radius 5 around `(20,0)` at `(25,0)` (root `t2 = 1/4`; `t1 = -1/4` is outside
`[0,1]`). -/
theorem interEval_exit : getCircleLineIntersection 20 0 5 20 0 40 0 = some ⟨25, 0⟩ := by
  rw [getCircleLineIntersection]
  norm_num [ratSqrt_40000]

/-- Concrete evaluation: `(0,0)` lies outside the footprint around `(20,0)`. -/
theorem insideEval_0 : isInsideEraser 20 0 5 0 0 = false := by
  rw [isInsideEraser, decide_eq_false_iff_not]
  push_neg
  intro _
  norm_num

/-- Concrete evaluation: `(20,0)` (the centre) is inside the footprint. -/
theorem insideEval_20 : isInsideEraser 20 0 5 20 0 = true := by
  rw [isInsideEraser, decide_eq_true_eq]
  norm_num

/-- Concrete evaluation: `(40,0)` lies outside the footprint. -/
theorem insideEval_40 : isInsideEraser 20 0 5 40 0 = false := by
  rw [isInsideEraser, decide_eq_false_iff_not]
  push_neg
  intro _
  norm_num

/-- Concrete evaluation of the eraser loop on the three-point stroke of the
splitting scenario. -/
theorem erasePointsLoop_split :
    erasePointsLoop 20 0 5 none [] [] false [⟨0, 0⟩, ⟨20, 0⟩, ⟨40, 0⟩] =
      ⟨true, [[⟨0, 0⟩, ⟨15, 0⟩], [⟨25, 0⟩, ⟨40, 0⟩]]⟩ := by
  simp only [erasePointsLoop, insideEval_0, insideEval_20, insideEval_40,
    interEval_entry, interEval_exit, Bool.false_eq_true, if_false, if_true,
    List.length_nil, List.length_cons, List.nil_append, List.cons_append]
  norm_num

/-- Concrete evaluation of `eraseFromPathScreenCoords` on the splitting
scenario (zoom 1, so screen and document coordinates agree): the stroke is
modified and splits into the two expected segments, independently of its
style fields. -/
theorem eraseFromPath_split (id : ℕ) (c : String) (w o : ℚ) (pg : ℕ) :
    eraseFromPathScreenCoords 20 0 5
        ⟨id, [⟨0, 0⟩, ⟨20, 0⟩, ⟨40, 0⟩], c, w, o, pg⟩ 1 =
      ⟨true, [[⟨0, 0⟩, ⟨15, 0⟩], [⟨25, 0⟩, ⟨40, 0⟩]]⟩ := by
  rw [eraseFromPathScreenCoords]
  rw [show (20 : ℚ) / 1 = 20 by norm_num, show (0 : ℚ) / 1 = 0 by norm_num,
    show (5 : ℚ) / 1 = 5 by norm_num]
  exact erasePointsLoop_split

/-- C1: erasing with footprint centre `(20,0)` and radius 5 (zoom 1) a store
whose only stroke on the current page is `[(0,0),(20,0),(40,0)]` removes that
stroke's id and adds exactly the two replacement strokes
`[(0,0),(15,0)]` and `[(25,0),(40,0)]`, each carrying the original's color,
strokeWidth, opacity and pageNumber and a fresh id. -/
theorem eraser_splits_stroke (id : ℕ) (c : String) (w o : ℚ) (pg : ℕ)
    (s : PdfState)
    (hs : s.pencilAnnotations = [⟨id, [⟨0, 0⟩, ⟨20, 0⟩, ⟨40, 0⟩], c, w, o, pg⟩])
    (hid : id < s.nextId) :
    (eraseAtScreenCoords 20 0 5 1 pg s).pencilAnnotations =
      [⟨s.nextId, [⟨0, 0⟩, ⟨15, 0⟩], c, w, o, pg⟩,
       ⟨s.nextId + 1, [⟨25, 0⟩, ⟨40, 0⟩], c, w, o, pg⟩] ∧
    ∀ a ∈ (eraseAtScreenCoords 20 0 5 1 pg s).pencilAnnotations, a.id ≠ id := by
  have hmain : (eraseAtScreenCoords 20 0 5 1 pg s).pencilAnnotations =
      [⟨s.nextId, [⟨0, 0⟩, ⟨15, 0⟩], c, w, o, pg⟩,
       ⟨s.nextId + 1, [⟨25, 0⟩, ⟨40, 0⟩], c, w, o, pg⟩] := by
    rw [eraseAtScreenCoords, hs]
    have hfilter :
        List.filter (fun a => a.pageNumber = pg)
          [(⟨id, [⟨0, 0⟩, ⟨20, 0⟩, ⟨40, 0⟩], c, w, o, pg⟩ : PencilAnnot)] =
        [⟨id, [⟨0, 0⟩, ⟨20, 0⟩, ⟨40, 0⟩], c, w, o, pg⟩] := by
      simp
    rw [hfilter, List.foldl_cons, List.foldl_nil, eraseStep, eraseFromPath_split]
    simp only [if_true, List.foldl_cons, List.foldl_nil, addSegStep,
      removePencilAnnot, addPencilAnnot, List.length_cons, List.length_nil]
    norm_num [hs, List.filter_cons, List.filter_nil]
  refine ⟨hmain, ?_⟩
  intro a ha
  rw [hmain] at ha
  simp only [List.mem_cons, List.not_mem_nil, or_false] at ha
  rcases ha with rfl | rfl
  · simpa using Nat.ne_of_gt hid
  · simpa using Nat.ne_of_gt (by omega : id < s.nextId + 1)

/-- C1 witness: the splitting scenario on a concrete store. -/
theorem eraser_splits_stroke_witness :
    (eraseAtScreenCoords 20 0 5 1 1
        ⟨true, 1, [7], [],
         [⟨0, [⟨0, 0⟩, ⟨20, 0⟩, ⟨40, 0⟩], default, 2, 1, 1⟩],
         5⟩).pencilAnnotations =
      [⟨5, [⟨0, 0⟩, ⟨15, 0⟩], default, 2, 1, 1⟩,
       ⟨6, [⟨25, 0⟩, ⟨40, 0⟩], default, 2, 1, 1⟩] := by
  have h := eraser_splits_stroke 0 default 2 1 1
    ⟨true, 1, [7], [], [⟨0, [⟨0, 0⟩, ⟨20, 0⟩, ⟨40, 0⟩], default, 2, 1, 1⟩], 5⟩
    rfl (by norm_num)
  simpa using h.1

/-! ## List helper lemmas for the page operations -/

theorem insertAt_length {α : Type _} :
    ∀ (l : List α) (n : ℕ) (x : α), (insertAt l n x).length = l.length + 1 := by
  intro l
  induction l with
  | nil => intro n x; cases n <;> rfl
  | cons a rest ih =>
      intro n x
      cases n with
      | zero => rfl
      | succ m => simp [insertAt, ih]

theorem removeAt_length {α : Type _} :
    ∀ (l : List α) (n : ℕ), n < l.length → (removeAt l n).length + 1 = l.length := by
  intro l
  induction l with
  | nil => intro n h; simp at h
  | cons a rest ih =>
      intro n h
      cases n with
      | zero => rfl
      | succ m =>
          have := ih m (by simpa using h)
          simp only [removeAt, List.length_cons]
          omega

theorem moveElem_length {α : Type _} (l : List α) (f t : ℕ)
    (hf : f < l.length) : (moveElem l f t).length = l.length := by
  rw [moveElem]
  cases hx : l.get? f with
  | none => rfl
  | some x =>
      rw [insertAt_length]
      exact removeAt_length l f hf

theorem insertAt_perm {α : Type _} :
    ∀ (l : List α) (n : ℕ) (x : α), List.Perm (insertAt l n x) (x :: l) := by
  intro l
  induction l with
  | nil => intro n x; cases n <;> exact List.Perm.refl _
  | cons a rest ih =>
      intro n x
      cases n with
      | zero => exact List.Perm.refl _
      | succ m =>
          exact ((ih m x).cons a).trans (List.Perm.swap x a rest)

theorem removeAt_cons_perm {α : Type _} :
    ∀ (l : List α) (n : ℕ) (x : α), l.get? n = some x →
      List.Perm (x :: removeAt l n) l := by
  intro l
  induction l with
  | nil => intro n x h; simp [List.get?_eq_getElem?] at h
  | cons a rest ih =>
      intro n x h
      cases n with
      | zero =>
          obtain rfl : a = x := by simpa using h
          exact List.Perm.refl _
      | succ m =>
          have h2 : rest.get? m = some x := by simpa using h
          exact (List.Perm.swap a x (removeAt rest m)).trans
            ((ih m x h2).cons a)

theorem moveElem_perm {α : Type _} (l : List α) (f t : ℕ)
    (hf : f < l.length) : List.Perm (moveElem l f t) l := by
  rw [moveElem]
  cases hx : l.get? f with
  | none => exact List.Perm.refl _
  | some x => exact (insertAt_perm _ t x).trans (removeAt_cons_perm l f x hx)

theorem insertAt_map {α β : Type _} (g : α → β) :
    ∀ (l : List α) (n : ℕ) (x : α),
      insertAt (l.map g) n (g x) = (insertAt l n x).map g := by
  intro l
  induction l with
  | nil => intro n x; cases n <;> rfl
  | cons a rest ih =>
      intro n x
      cases n with
      | zero => rfl
      | succ m => simp [insertAt, ih]

theorem removeAt_map {α β : Type _} (g : α → β) :
    ∀ (l : List α) (n : ℕ), removeAt (l.map g) n = (removeAt l n).map g := by
  intro l
  induction l with
  | nil => intro n; cases n <;> rfl
  | cons a rest ih =>
      intro n
      cases n with
      | zero => rfl
      | succ m => simp [removeAt, ih]

theorem moveElem_map {α β : Type _} (g : α → β) (l : List α) (f t : ℕ) :
    moveElem (l.map g) f t = (moveElem l f t).map g := by
  rw [moveElem, moveElem]
  cases hx : l.get? f with
  | none =>
      have hx2 : (l.map g).get? f = none := by
        rw [List.get?_eq_getElem?, List.getElem?_map, ← List.get?_eq_getElem?,
          hx]
        rfl
      rw [hx2]
  | some x =>
      have hx2 : (l.map g).get? f = some (g x) := by
        rw [List.get?_eq_getElem?, List.getElem?_map, ← List.get?_eq_getElem?,
          hx]
        rfl
      rw [hx2]
      show insertAt (removeAt (List.map g l) f) t (g x) =
        List.map g (insertAt (removeAt l f) t x)
      rw [removeAt_map, insertAt_map]

theorem getD_range_map {α : Type _} :
    ∀ (l : List α) (d : α),
      (List.range l.length).map (fun i => l.getD i d) = l := by
  intro l
  induction l with
  | nil => intro d; rfl
  | cons a rest ih =>
      intro d
      rw [List.length_cons, List.range_succ_eq_map, List.map_cons,
        List.map_map]
      have h1 : (a :: rest).getD 0 d = a := rfl
      have h2 : ((fun i => (a :: rest).getD i d) ∘ Nat.succ) =
          fun i => rest.getD i d := by
        funext i
        rfl
      rw [h1, h2, ih]

theorem get?_eq_some_getD {α : Type _} (l : List α) (n : ℕ) (d : α)
    (h : n < l.length) : l.get? n = some (l.getD n d) := by
  rw [List.getD_eq_getElem?_getD, ← List.get?_eq_getElem?]
  cases hx : l.get? n with
  | none =>
      rw [List.get?_eq_getElem?, List.getElem?_eq_none_iff] at hx
      omega
  | some v => rfl

theorem idxOf_lt_length : ∀ (l : List ℕ) (k : ℕ), k ∈ l → idxOf l k < l.length := by
  intro l
  induction l with
  | nil => intro k h; simp at h
  | cons v rest ih =>
      intro k h
      rw [idxOf]
      by_cases hv : v = k
      · rw [if_pos hv]; simp
      · rw [if_neg hv]
        have hk : k ∈ rest := by
          rcases List.mem_cons.mp h with h1 | h1
          · exact absurd h1.symm hv
          · exact h1
        have := ih k hk
        simp only [List.length_cons]
        omega

theorem get?_idxOf : ∀ (l : List ℕ) (k : ℕ), k ∈ l → l.get? (idxOf l k) = some k := by
  intro l
  induction l with
  | nil => intro k h; simp at h
  | cons v rest ih =>
      intro k h
      rw [idxOf]
      by_cases hv : v = k
      · rw [if_pos hv, hv]; rfl
      · rw [if_neg hv]
        have hk : k ∈ rest := by
          rcases List.mem_cons.mp h with h1 | h1
          · exact absurd h1.symm hv
          · exact h1
        simpa using ih k hk

theorem mapLookup_buildOldToNew :
    ∀ (l : List ℕ) (i old : ℕ), 1 ≤ old → old - 1 ∈ l →
      mapLookup (buildOldToNew l i) old = some (idxOf l (old - 1) + i + 1) := by
  intro l
  induction l with
  | nil => intro i old _ h; simp at h
  | cons v rest ih =>
      intro i old h1 hmem
      rw [buildOldToNew, mapLookup]
      by_cases hv : v + 1 = old
      · rw [if_pos hv]
        have hveq : v = old - 1 := by omega
        rw [idxOf, if_pos hveq]
        simp
      · rw [if_neg hv]
        have hvne : v ≠ old - 1 := by omega
        have hmem2 : old - 1 ∈ rest := by
          rcases List.mem_cons.mp hmem with h2 | h2
          · exact absurd h2.symm hvne
          · exact h2
        rw [ih (i + 1) old h1 hmem2, idxOf, if_neg hvne]
        simp only [Option.some.injEq]
        omega

theorem mapLookup_buildOldToNew_bound :
    ∀ (l : List ℕ) (i key v : ℕ),
      mapLookup (buildOldToNew l i) key = some v →
      i + 1 ≤ v ∧ v ≤ i + l.length := by
  intro l
  induction l with
  | nil => intro i key v h; simp [buildOldToNew, mapLookup] at h
  | cons x rest ih =>
      intro i key v h
      rw [buildOldToNew, mapLookup] at h
      split at h
      · obtain rfl : i + 1 = v := by simpa using h
        simp only [List.length_cons]
        omega
      · have := ih (i + 1) key v h
        simp only [List.length_cons]
        omega

/-- The source's filter-then-map over the annotation list equals the
specification's single-pass renumbering. -/
theorem filter_map_renumber {α : Type _} (page : α → ℕ) (setPage : α → ℕ → α)
    (p : ℕ) (l : List α) :
    (l.filter (fun a => page a ≠ p)).map
        (fun a => setPage a (if p < page a then page a - 1 else page a)) =
      renumberOnRemoveSpec page setPage p l := by
  induction l with
  | nil => rfl
  | cons a l ih =>
      rw [renumberOnRemoveSpec, List.filterMap_cons]
      rw [renumberOnRemoveSpec] at ih
      by_cases h : page a = p
      · rw [if_pos h, List.filter_cons]
        have hc : decide (page a ≠ p) = false := by simp [h]
        rw [hc]
        simpa using ih
      · rw [if_neg h, List.filter_cons]
        have hc : decide (page a ≠ p) = true := by simp [h]
        rw [hc]
        simpa using ih

/-- Deleting the annotations of the removed page drops exactly the count of
annotations that sat on it. -/
theorem renumber_length {α : Type _} (page : α → ℕ) (setPage : α → ℕ → α)
    (p : ℕ) (l : List α) :
    (renumberOnRemoveSpec page setPage p l).length +
        l.countP (fun a => page a = p) = l.length := by
  induction l with
  | nil => rfl
  | cons a l ih =>
      by_cases h : page a = p <;>
        simp only [renumberOnRemoveSpec, List.filterMap_cons, List.countP_cons,
          h, if_pos, if_neg, decide_True, decide_False] at * <;>
        simp [h] at * <;> omega

/-- Success characterization of `removePage`: the guards hold and the result
state is the filter/renumber update of the input state. -/
theorem removePage_ok_iff (s : PdfState) (p : ℕ) (s1 : PdfState) (n : ℕ)
    (h : removePage s p = .ok (s1, n)) :
    s.loaded = true ∧ 2 ≤ s.numPages ∧ 1 ≤ p ∧ p ≤ s.numPages ∧
    n = s.numPages - 1 ∧
    s1 = { s with
            numPages := s.numPages - 1,
            pageIds := removeAt s.pageIds (p - 1),
            annotations :=
              (s.annotations.filter (fun a => a.pageNumber ≠ p)).map
                (fun a =>
                  { a with pageNumber :=
                      if p < a.pageNumber then a.pageNumber - 1
                      else a.pageNumber }),
            pencilAnnotations :=
              (s.pencilAnnotations.filter (fun a => a.pageNumber ≠ p)).map
                (fun a =>
                  { a with pageNumber :=
                      if p < a.pageNumber then a.pageNumber - 1
                      else a.pageNumber }) } := by
  simp only [removePage] at h
  by_cases h1 : s.loaded = false
  · rw [if_pos h1] at h
    exact absurd h (by simp)
  rw [if_neg h1] at h
  by_cases h2 : s.numPages ≤ 1
  · rw [if_pos h2] at h
    exact absurd h (by simp)
  rw [if_neg h2] at h
  by_cases h3 : p < 1 ∨ s.numPages < p
  · rw [if_pos h3] at h
    exact absurd h (by simp)
  rw [if_neg h3] at h
  injection h with hpair
  injection hpair with hs1 hn
  push_neg at h3
  subst hs1
  subst hn
  refine ⟨by simpa using h1, by omega, by omega, by omega, rfl, rfl⟩

/-- Success characterization of `movePage`: either the indices coincide (a
no-op) or the guards hold and the result state carries the spliced `pageIds`
and the `oldToNew`-remapped annotations. -/
theorem movePage_ok_iff (s : PdfState) (f t : ℕ) (s1 : PdfState)
    (h : movePage s f t = .ok s1) :
    (f = t ∧ s1 = s) ∨
    (s.loaded = true ∧ f < s.numPages ∧ t < s.numPages ∧ f ≠ t ∧
     s1 = { s with
             pageIds := moveElem s.pageIds f t,
             annotations := s.annotations.map
               (fun a =>
                 { a with pageNumber :=
                     (mapLookup
                       (buildOldToNew (moveElem (List.range s.numPages) f t) 0)
                       a.pageNumber).getD a.pageNumber }),
             pencilAnnotations := s.pencilAnnotations.map
               (fun a =>
                 { a with pageNumber :=
                     (mapLookup
                       (buildOldToNew (moveElem (List.range s.numPages) f t) 0)
                       a.pageNumber).getD a.pageNumber }) }) := by
  simp only [movePage] at h
  by_cases h1 : s.loaded = false
  · rw [if_pos h1] at h
    exact absurd h (by simp)
  rw [if_neg h1] at h
  by_cases h2 : s.numPages ≤ f ∨ s.numPages ≤ t
  · rw [if_pos h2] at h
    exact absurd h (by simp)
  rw [if_neg h2] at h
  by_cases h3 : f = t
  · rw [if_pos h3] at h
    injection h with hs1
    exact Or.inl ⟨h3, hs1.symm⟩
  rw [if_neg h3] at h
  injection h with hs1
  push_neg at h2
  exact Or.inr ⟨by simpa using h1, h2.1, h2.2, h3, hs1.symm⟩

/-- C5: for every valid removed page `p`, `removePage` succeeds and its
annotation lists are exactly the specification's renumbering (annotations on
page `p` deleted, later pages decremented, earlier pages unchanged); the
counts drop by exactly the number of annotations on page `p`. -/
theorem removePage_renumbers (s : PdfState) (p : ℕ) (hl : s.loaded = true)
    (hN : 2 ≤ s.numPages) (hp1 : 1 ≤ p) (hpN : p ≤ s.numPages) :
    removePage s p = .ok (runRemovePage s p, s.numPages - 1) ∧
    (runRemovePage s p).annotations =
      renumberOnRemoveSpec (fun a => a.pageNumber)
        (fun a pn => { a with pageNumber := pn }) p s.annotations ∧
    (runRemovePage s p).pencilAnnotations =
      renumberOnRemoveSpec (fun a => a.pageNumber)
        (fun a pn => { a with pageNumber := pn }) p s.pencilAnnotations ∧
    (runRemovePage s p).annotations.length +
        s.annotations.countP (fun a => a.pageNumber = p) =
      s.annotations.length ∧
    (runRemovePage s p).pencilAnnotations.length +
        s.pencilAnnotations.countP (fun a => a.pageNumber = p) =
      s.pencilAnnotations.length := by
  have hok : removePage s p = Except.ok
      ({ s with
          numPages := s.numPages - 1,
          pageIds := removeAt s.pageIds (p - 1),
          annotations :=
            (s.annotations.filter (fun a => a.pageNumber ≠ p)).map
              (fun a =>
                { a with pageNumber :=
                    if p < a.pageNumber then a.pageNumber - 1
                    else a.pageNumber }),
          pencilAnnotations :=
            (s.pencilAnnotations.filter (fun a => a.pageNumber ≠ p)).map
              (fun a =>
                { a with pageNumber :=
                    if p < a.pageNumber then a.pageNumber - 1
                    else a.pageNumber }) },
       s.numPages - 1) := by
    simp only [removePage]
    rw [if_neg (by simp [hl]), if_neg (by omega), if_neg (by push_neg; omega)]
  have hrunA : (runRemovePage s p).annotations =
      (s.annotations.filter (fun a => a.pageNumber ≠ p)).map
        (fun a =>
          { a with pageNumber :=
              if p < a.pageNumber then a.pageNumber - 1 else a.pageNumber }) := by
    rw [runRemovePage, hok]
  have hrunP : (runRemovePage s p).pencilAnnotations =
      (s.pencilAnnotations.filter (fun a => a.pageNumber ≠ p)).map
        (fun a =>
          { a with pageNumber :=
              if p < a.pageNumber then a.pageNumber - 1 else a.pageNumber }) := by
    rw [runRemovePage, hok]
  have hspecA : (runRemovePage s p).annotations =
      renumberOnRemoveSpec (fun a => a.pageNumber)
        (fun a pn => { a with pageNumber := pn }) p s.annotations := by
    rw [hrunA]
    exact filter_map_renumber (fun a => a.pageNumber)
      (fun a pn => { a with pageNumber := pn }) p s.annotations
  have hspecP : (runRemovePage s p).pencilAnnotations =
      renumberOnRemoveSpec (fun a => a.pageNumber)
        (fun a pn => { a with pageNumber := pn }) p s.pencilAnnotations := by
    rw [hrunP]
    exact filter_map_renumber (fun a => a.pageNumber)
      (fun a pn => { a with pageNumber := pn }) p s.pencilAnnotations
  refine ⟨?_, hspecA, hspecP, ?_, ?_⟩
  · rw [runRemovePage, hok]
  · rw [hspecA]
    exact renumber_length (fun a => a.pageNumber)
      (fun a pn => { a with pageNumber := pn }) p s.annotations
  · rw [hspecP]
    exact renumber_length (fun a => a.pageNumber)
      (fun a pn => { a with pageNumber := pn }) p s.pencilAnnotations

/-- C5 witness: removing page 2 of a concrete 3-page store with one pencil
annotation per page keeps page 1, deletes page 2 and renumbers page 3 to 2. -/
theorem removePage_renumbers_witness :
    (runRemovePage
        ⟨true, 3, [10, 11, 12], [],
         [⟨0, [⟨1, 1⟩, ⟨2, 2⟩], default, 1, 1, 1⟩,
          ⟨1, [⟨3, 3⟩, ⟨4, 4⟩], default, 1, 1, 2⟩,
          ⟨2, [⟨5, 5⟩, ⟨6, 6⟩], default, 1, 1, 3⟩], 3⟩
        2).pencilAnnotations =
      renumberOnRemoveSpec (fun a => a.pageNumber)
        (fun a pn => { a with pageNumber := pn }) 2
        [⟨0, [⟨1, 1⟩, ⟨2, 2⟩], default, 1, 1, 1⟩,
         ⟨1, [⟨3, 3⟩, ⟨4, 4⟩], default, 1, 1, 2⟩,
         ⟨2, [⟨5, 5⟩, ⟨6, 6⟩], default, 1, 1, 3⟩] := by
  have h := removePage_renumbers
    ⟨true, 3, [10, 11, 12], [],
     [⟨0, [⟨1, 1⟩, ⟨2, 2⟩], default, 1, 1, 1⟩,
      ⟨1, [⟨3, 3⟩, ⟨4, 4⟩], default, 1, 1, 2⟩,
      ⟨2, [⟨5, 5⟩, ⟨6, 6⟩], default, 1, 1, 3⟩], 3⟩
    2 rfl (by norm_num) (by norm_num) (by norm_num)
  exact h.2.2.1

/-- C4: every page-structural operation keeps every annotation's page number
inside `[1, page count]` of the resulting state (operations that throw leave
the state unchanged, so the invariant holds trivially there). -/
theorem pageOps_preserve_validity (s : PdfState) (p f t : ℕ)
    (h : annotationsInRange s) :
    annotationsInRange (runAddNewPage s) ∧
    annotationsInRange (runRemovePage s p) ∧
    annotationsInRange (runMovePage s f t) := by
  obtain ⟨hT, hP⟩ := h
  refine ⟨?_, ?_, ?_⟩
  · rw [runAddNewPage, addNewPage]
    by_cases hl : s.loaded = false
    · rw [if_pos hl]
      exact ⟨hT, hP⟩
    · rw [if_neg hl]
      show annotationsInRange
        { s with numPages := s.numPages + 1,
                 pageIds := s.pageIds ++ [s.nextId],
                 nextId := s.nextId + 1 }
      constructor
      · intro a ha
        have hb := hT a ha
        exact ⟨hb.1, by simp only [PdfState.numPages]; omega⟩
      · intro a ha
        have hb := hP a ha
        exact ⟨hb.1, by simp only [PdfState.numPages]; omega⟩
  · cases hrp : removePage s p with
    | error e =>
        have hrun : runRemovePage s p = s := by rw [runRemovePage, hrp]
        rw [hrun]
        exact ⟨hT, hP⟩
    | ok pair =>
        obtain ⟨s1, n⟩ := pair
        have hrun : runRemovePage s p = s1 := by rw [runRemovePage, hrp]
        rw [hrun]
        obtain ⟨_, hN2, hp1, hpN, _, hs1⟩ := removePage_ok_iff s p s1 n hrp
        subst hs1
        constructor
        · intro a ha
          simp only [List.mem_map, List.mem_filter] at ha
          obtain ⟨b, ⟨hb, hbp⟩, rfl⟩ := ha
          have hbr := hT b hb
          have hbne : b.pageNumber ≠ p := by simpa using hbp
          have hval :
              ({ b with pageNumber :=
                  if p < b.pageNumber then b.pageNumber - 1
                  else b.pageNumber } : TextAnnot).pageNumber =
                if p < b.pageNumber then b.pageNumber - 1 else b.pageNumber :=
            rfl
          rw [hval]
          refine ⟨by split <;> omega, ?_⟩
          show (if p < b.pageNumber then b.pageNumber - 1 else b.pageNumber) ≤
            s.numPages - 1
          split <;> omega
        · intro a ha
          simp only [List.mem_map, List.mem_filter] at ha
          obtain ⟨b, ⟨hb, hbp⟩, rfl⟩ := ha
          have hbr := hP b hb
          have hbne : b.pageNumber ≠ p := by simpa using hbp
          have hval :
              ({ b with pageNumber :=
                  if p < b.pageNumber then b.pageNumber - 1
                  else b.pageNumber } : PencilAnnot).pageNumber =
                if p < b.pageNumber then b.pageNumber - 1 else b.pageNumber :=
            rfl
          rw [hval]
          refine ⟨by split <;> omega, ?_⟩
          show (if p < b.pageNumber then b.pageNumber - 1 else b.pageNumber) ≤
            s.numPages - 1
          split <;> omega
  · cases hmp : movePage s f t with
    | error e =>
        have hrun : runMovePage s f t = s := by rw [runMovePage, hmp]
        rw [hrun]
        exact ⟨hT, hP⟩
    | ok s1 =>
        have hrun : runMovePage s f t = s1 := by rw [runMovePage, hmp]
        rw [hrun]
        rcases movePage_ok_iff s f t s1 hmp with ⟨_, rfl⟩ | ⟨_, hf, ht, _, hs1⟩
        · exact ⟨hT, hP⟩
        · subst hs1
          have hlen : (moveElem (List.range s.numPages) f t).length =
              s.numPages := by
            rw [moveElem_length _ _ _ (by rw [List.length_range]; exact hf),
              List.length_range]
          constructor
          · intro a ha
            simp only [List.mem_map] at ha
            obtain ⟨b, hb, rfl⟩ := ha
            have hbr := hT b hb
            have hval :
                ({ b with pageNumber :=
                    (mapLookup
                      (buildOldToNew (moveElem (List.range s.numPages) f t) 0)
                      b.pageNumber).getD b.pageNumber } : TextAnnot).pageNumber =
                  (mapLookup
                    (buildOldToNew (moveElem (List.range s.numPages) f t) 0)
                    b.pageNumber).getD b.pageNumber := rfl
            rw [hval]
            cases hlk : mapLookup
                (buildOldToNew (moveElem (List.range s.numPages) f t) 0)
                b.pageNumber with
            | none => simpa using hbr
            | some v =>
                have hbd := mapLookup_buildOldToNew_bound _ 0 _ _ hlk
                rw [hlen] at hbd
                simp only [Option.getD_some]
                refine ⟨by omega, ?_⟩
                show v ≤ s.numPages
                omega
          · intro a ha
            simp only [List.mem_map] at ha
            obtain ⟨b, hb, rfl⟩ := ha
            have hbr := hP b hb
            have hval :
                ({ b with pageNumber :=
                    (mapLookup
                      (buildOldToNew (moveElem (List.range s.numPages) f t) 0)
                      b.pageNumber).getD b.pageNumber } : PencilAnnot).pageNumber =
                  (mapLookup
                    (buildOldToNew (moveElem (List.range s.numPages) f t) 0)
                    b.pageNumber).getD b.pageNumber := rfl
            rw [hval]
            cases hlk : mapLookup
                (buildOldToNew (moveElem (List.range s.numPages) f t) 0)
                b.pageNumber with
            | none => simpa using hbr
            | some v =>
                have hbd := mapLookup_buildOldToNew_bound _ 0 _ _ hlk
                rw [hlen] at hbd
                simp only [Option.getD_some]
                refine ⟨by omega, ?_⟩
                show v ≤ s.numPages
                omega

/-- C4 witness: the invariant holds after removing page 2 of a concrete
3-page store. -/
theorem pageOps_preserve_validity_witness :
    annotationsInRange
      (runRemovePage
        ⟨true, 3, [10, 11, 12], [],
         [⟨0, [⟨1, 1⟩, ⟨2, 2⟩], default, 1, 1, 1⟩,
          ⟨1, [⟨3, 3⟩, ⟨4, 4⟩], default, 1, 1, 2⟩,
          ⟨2, [⟨5, 5⟩, ⟨6, 6⟩], default, 1, 1, 3⟩], 3⟩
        2) := by
  have h := pageOps_preserve_validity
    ⟨true, 3, [10, 11, 12], [],
     [⟨0, [⟨1, 1⟩, ⟨2, 2⟩], default, 1, 1, 1⟩,
      ⟨1, [⟨3, 3⟩, ⟨4, 4⟩], default, 1, 1, 2⟩,
      ⟨2, [⟨5, 5⟩, ⟨6, 6⟩], default, 1, 1, 3⟩], 3⟩
    2 0 0 (by constructor <;> simp)
  exact h.2.1

/-- C6: for valid distinct indices, `movePage` succeeds and remaps every
annotation's page number through `displayPerm` — the very permutation the
reorder applies to the physical pages — so the page id found at an
annotation's new display position is the id of the page it was drawn on. -/
theorem movePage_applies_page_perm (s : PdfState) (f t : ℕ)
    (hl : s.loaded = true) (hf : f < s.numPages) (ht : t < s.numPages)
    (hft : f ≠ t) (hlen : s.pageIds.length = s.numPages)
    (hr : annotationsInRange s) :
    movePage s f t = .ok (runMovePage s f t) ∧
    (runMovePage s f t).annotations = s.annotations.map
      (fun a =>
        { a with pageNumber := displayPerm s.numPages f t a.pageNumber }) ∧
    (runMovePage s f t).pencilAnnotations = s.pencilAnnotations.map
      (fun a =>
        { a with pageNumber := displayPerm s.numPages f t a.pageNumber }) ∧
    ∀ o, 1 ≤ o → o ≤ s.numPages →
      (runMovePage s f t).pageIds.get? (displayPerm s.numPages f t o - 1) =
        s.pageIds.get? (o - 1) := by
  have hok : movePage s f t = Except.ok
      { s with
          pageIds := moveElem s.pageIds f t,
          annotations := s.annotations.map
            (fun a =>
              { a with pageNumber :=
                  (mapLookup
                    (buildOldToNew (moveElem (List.range s.numPages) f t) 0)
                    a.pageNumber).getD a.pageNumber }),
          pencilAnnotations := s.pencilAnnotations.map
            (fun a =>
              { a with pageNumber :=
                  (mapLookup
                    (buildOldToNew (moveElem (List.range s.numPages) f t) 0)
                    a.pageNumber).getD a.pageNumber }) } := by
    simp only [movePage]
    rw [if_neg (by simp [hl]), if_neg (by push_neg; omega), if_neg hft]
  have hA : (runMovePage s f t).annotations = s.annotations.map
      (fun a =>
        { a with pageNumber :=
            (mapLookup
              (buildOldToNew (moveElem (List.range s.numPages) f t) 0)
              a.pageNumber).getD a.pageNumber }) := by
    rw [runMovePage, hok]
  have hPens : (runMovePage s f t).pencilAnnotations = s.pencilAnnotations.map
      (fun a =>
        { a with pageNumber :=
            (mapLookup
              (buildOldToNew (moveElem (List.range s.numPages) f t) 0)
              a.pageNumber).getD a.pageNumber }) := by
    rw [runMovePage, hok]
  have hIds : (runMovePage s f t).pageIds = moveElem s.pageIds f t := by
    rw [runMovePage, hok]
  have hperm : List.Perm (moveElem (List.range s.numPages) f t)
      (List.range s.numPages) :=
    moveElem_perm _ _ _ (by rw [List.length_range]; exact hf)
  have hmem : ∀ k, k < s.numPages →
      k ∈ moveElem (List.range s.numPages) f t :=
    fun k hk => hperm.mem_iff.mpr (List.mem_range.mpr hk)
  have hremap : ∀ old, 1 ≤ old → old ≤ s.numPages →
      (mapLookup (buildOldToNew (moveElem (List.range s.numPages) f t) 0)
        old).getD old = displayPerm s.numPages f t old := by
    intro old h1 hN
    rw [mapLookup_buildOldToNew _ 0 old h1 (hmem _ (by omega))]
    rw [Option.getD_some, displayPerm]
  refine ⟨?_, ?_, ?_, ?_⟩
  · rw [runMovePage, hok]
  · rw [hA]
    apply List.map_congr_left
    intro a ha
    have hb := hr.1 a ha
    rw [hremap a.pageNumber hb.1 hb.2]
  · rw [hPens]
    apply List.map_congr_left
    intro a ha
    have hb := hr.2 a ha
    rw [hremap a.pageNumber hb.1 hb.2]
  · intro o h1 hN
    rw [hIds]
    have hg : moveElem s.pageIds f t =
        (moveElem (List.range s.numPages) f t).map
          (fun i => s.pageIds.getD i 0) := by
      conv_lhs =>
        rw [show s.pageIds =
            (List.range s.numPages).map (fun i => s.pageIds.getD i 0) from by
          rw [← hlen]
          exact (getD_range_map s.pageIds 0).symm]
      exact moveElem_map _ _ f t
    rw [hg]
    have hdp : displayPerm s.numPages f t o - 1 =
        idxOf (moveElem (List.range s.numPages) f t) (o - 1) := by
      rw [displayPerm]
      omega
    rw [hdp]
    rw [List.get?_eq_getElem?, List.getElem?_map, ← List.get?_eq_getElem?]
    rw [get?_idxOf _ _ (hmem _ (by omega))]
    rw [get?_eq_some_getD s.pageIds (o - 1) 0 (by omega)]
    rfl

/-- C6 witness: moving page index 0 to index 2 of a concrete 3-page store
sends the annotations of old pages 1, 2, 3 to new pages 3, 1, 2. -/
theorem movePage_applies_page_perm_witness :
    (runMovePage
        ⟨true, 3, [10, 11, 12], [],
         [⟨0, [], default, 1, 1, 1⟩, ⟨1, [], default, 1, 1, 2⟩,
          ⟨2, [], default, 1, 1, 3⟩], 3⟩
        0 2).pencilAnnotations =
      [⟨0, [], default, 1, 1, 3⟩, ⟨1, [], default, 1, 1, 1⟩,
       ⟨2, [], default, 1, 1, 2⟩] := by
  have h := movePage_applies_page_perm
    ⟨true, 3, [10, 11, 12], [],
     [⟨0, [], default, 1, 1, 1⟩, ⟨1, [], default, 1, 1, 2⟩,
      ⟨2, [], default, 1, 1, 3⟩], 3⟩
    0 2 rfl (by norm_num) (by norm_num) (by norm_num) rfl
    (by constructor <;> simp)
  exact h.2.2.1.trans (by decide)
